import Mathlib

/-!
Verification of the typyPRISM core: the `Domain` radial grid with its
DST-II / DST-III transform pair (`src/typyPRISM/core/Domain.py`) and the
solvation-potential calculation
(`src/typyPRISM/calculate/solvation_potential.py`).

Real numbers of the Python code (numpy float64) are modelled as exact
reals `ℝ`; numpy arrays are `List ℝ`; elementwise numpy arithmetic is
`List.zipWith`.  `scipy.fftpack.dst` of types 2 and 3 is embedded by the
formulas of the scipy documentation (the FFTPACK unnormalized
convention), which is the convention the coefficient arrays of `Domain`
were derived for.  Python methods that assign attributes of `self` are
embedded as functions returning the updated object; raised exceptions
become `Except` errors.
-/

namespace Typy

/-- Errors raised by the embedded Python code.  `valueError` embeds
`raise ValueError(msg)`, `assertionError` embeds a failing `assert`,
and `unboundLocalError` embeds the use of a local variable to which no
assignment was executed (Python's `UnboundLocalError`). -/
inductive Err where
  | valueError : String → Err
  | assertionError : String → Err
  | unboundLocalError : Err
deriving DecidableEq

/-- Embedding of `typyPRISM.core.Space.Space`: the two-valued space tag. -/
inductive Space where
  | Real : Space
  | Fourier : Space
deriving DecidableEq

/-- Embedding of `numpy.arange(start, stop, step)` in exact arithmetic:
`⌈(stop - start)/step⌉` evenly spaced values beginning at `start`. -/
noncomputable def arange (start stop step : ℝ) : List ℝ :=
  (List.range ⌈(stop - start) / step⌉₊).map (fun (i : ℕ) => start + (i : ℝ) * step)

/-- Embedding of the attribute state of `typyPRISM.core.Domain.Domain`:
`_length`, `_dr`, `_dk` together with the derived arrays assigned by
`build_grid`.  (`long_r`, a broadcasting reshape of `r`, is not carried:
no claim concerns it.) -/
structure Domain where
  length : ℕ
  dr : ℝ
  dk : ℝ
  r : List ℝ
  k : List ℝ
  DST_II_coeffs : List ℝ
  DST_III_coeffs : List ℝ

/-- Embedding of `Domain.build_grid`:
`self.r = np.arange(self._dr, self._dr*(self._length+1), self._dr)`,
`self.k = np.arange(self.dk, self.dk*(self._length+1), self.dk)`,
`self.DST_II_coeffs = 2.0*np.pi*self.r*self._dr`,
`self.DST_III_coeffs = self.k*self.dk/(4.0*np.pi*np.pi)`. -/
noncomputable def Domain.build_grid (d : Domain) : Domain :=
  let r := arange d.dr (d.dr * ((d.length : ℝ) + 1)) d.dr
  let k := arange d.dk (d.dk * ((d.length : ℝ) + 1)) d.dk
  { d with
    r := r
    k := k
    DST_II_coeffs := r.map (fun x => 2 * Real.pi * x * d.dr)
    DST_III_coeffs := k.map (fun x => x * d.dk / (4 * Real.pi * Real.pi)) }

/-- Embedding of the `Domain.dr` property setter: assigns `_dr`, derives
`_dk = π/(_dr*_length)` and rebuilds the grid. -/
noncomputable def Domain.set_dr (d : Domain) (value : ℝ) : Domain :=
  Domain.build_grid { d with dr := value, dk := Real.pi / (value * (d.length : ℝ)) }

/-- Embedding of the `Domain.dk` property setter: assigns `_dk`, derives
`_dr = π/(_dk*_length)` and rebuilds the grid. -/
noncomputable def Domain.set_dk (d : Domain) (value : ℝ) : Domain :=
  Domain.build_grid { d with dk := value, dr := Real.pi / (value * (d.length : ℝ)) }

/-- Embedding of the `Domain.length` property setter: assigns `_length`
and rebuilds the grid; neither spacing is re-derived. -/
noncomputable def Domain.set_length (d : Domain) (value : ℕ) : Domain :=
  Domain.build_grid { d with length := value }

/-- Attribute state of a `Domain` object right after `self._length = length`
in `Domain.__init__`, before any spacing is assigned (the remaining
attributes do not exist yet in Python; they are placeholders overwritten
by the first `build_grid`). -/
def Domain.initState (length : ℕ) : Domain :=
  { length := length, dr := 0, dk := 0, r := [], k := [], DST_II_coeffs := [], DST_III_coeffs := [] }

/-- Embedding of `Domain.__init__(length, dr=None, dk=None)`: exactly one
spacing must be given, the corresponding property setter runs, and
`build_grid` is called once more. -/
noncomputable def Domain.construct (length : ℕ) (dr dk : Option ℝ) : Except Err Domain :=
  match dr, dk with
  | none, none =>
      .error (.valueError "Real or Fourier grid spacing must be specified")
  | some _, some _ =>
      .error (.valueError "Cannot specify both Real and Fourier grid spacings independently.")
  | some v, none => .ok (Domain.build_grid ((Domain.initState length).set_dr v))
  | none, some v => .ok (Domain.build_grid ((Domain.initState length).set_dk v))

/-- Embedding of `scipy.fftpack.dst(x, type=2)` (unnormalized FFTPACK
convention): `y[j] = 2 * sum_i x[i] * sin(pi*(j+1)*(i+1/2)/N)`. -/
noncomputable def dst2 (x : List ℝ) : List ℝ :=
  (List.range x.length).map (fun (j : ℕ) =>
    2 * ∑ i ∈ Finset.range x.length,
      x.getD i 0 * Real.sin (Real.pi * ((j : ℝ) + 1) * ((i : ℝ) + 1/2) / (x.length : ℝ)))

/-- Embedding of `scipy.fftpack.dst(x, type=3)` (unnormalized FFTPACK
convention): `y[j] = (-1)^j * x[N-1] + 2 * sum_{i<N-1} x[i] * sin(pi*(j+1/2)*(i+1)/N)`. -/
noncomputable def dst3 (x : List ℝ) : List ℝ :=
  (List.range x.length).map (fun (j : ℕ) =>
    (-1 : ℝ) ^ j * x.getD (x.length - 1) 0 +
      2 * ∑ i ∈ Finset.range (x.length - 1),
        x.getD i 0 * Real.sin (Real.pi * ((j : ℝ) + 1/2) * ((i : ℝ) + 1) / (x.length : ℝ)))

/-- Elementwise numpy product of two arrays. -/
noncomputable def npMul (a b : List ℝ) : List ℝ := List.zipWith (· * ·) a b

/-- Elementwise numpy quotient of two arrays. -/
noncomputable def npDiv (a b : List ℝ) : List ℝ := List.zipWith (· / ·) a b

/-- Embedding of `Domain.to_fourier`:
`return dst(self.DST_II_coeffs*array, type=2)/self.k`. -/
noncomputable def Domain.to_fourier (d : Domain) (array : List ℝ) : List ℝ :=
  npDiv (dst2 (npMul d.DST_II_coeffs array)) d.k

/-- Embedding of `Domain.to_real`:
`return dst(self.DST_III_coeffs*array, type=3)/self.r`. -/
noncomputable def Domain.to_real (d : Domain) (array : List ℝ) : List ℝ :=
  npDiv (dst3 (npMul d.DST_III_coeffs array)) d.r

/-- Modelled from the spec: the PairMatrixField collaborator
(`typyPRISM.core.MatrixArray`, whose source is outside `src/`): for each
grid point a `rank x rank` matrix of reals, together with a single
two-valued space tag shared by all entries.  The grid axis is indexed by
`ℕ`; entries beyond the domain length are irrelevant junk. -/
structure MatrixArray (n : ℕ) where
  data : ℕ → Matrix (Fin n) (Fin n) ℝ
  space : Space

/-- Pairwise column `(t1,t2)` of a MatrixArray as a radial array of the
given grid length, as produced by `MatrixArray.itercolumn`. -/
noncomputable def MatrixArray.column {n : ℕ} (m : MatrixArray n) (len : ℕ)
    (t1 t2 : Fin n) : List ℝ :=
  (List.range len).map (fun g => m.data g t1 t2)

/-- Transform every pairwise column of a MatrixArray with `to_fourier`
and tag the result Fourier — the loop body of `Domain.MatrixArray_to_fourier`. -/
noncomputable def toFourierEntries {n : ℕ} (d : Domain) (m : MatrixArray n) : MatrixArray n :=
  { data := fun g => Matrix.of fun t1 t2 => (d.to_fourier (m.column d.length t1 t2)).getD g 0
    space := Space.Fourier }

/-- Transform every pairwise column of a MatrixArray with `to_real`
and tag the result Real — the loop body of `Domain.MatrixArray_to_real`. -/
noncomputable def toRealEntries {n : ℕ} (d : Domain) (m : MatrixArray n) : MatrixArray n :=
  { data := fun g => Matrix.of fun t1 t2 => (d.to_real (m.column d.length t1 t2)).getD g 0
    space := Space.Real }

/-- Embedding of `Domain.MatrixArray_to_fourier`: raises if the array is
already Fourier-tagged, otherwise transforms every column in place and
flips the tag. -/
noncomputable def Domain.MatrixArray_to_fourier {n : ℕ} (d : Domain) (m : MatrixArray n) :
    Except Err (MatrixArray n) :=
  if m.space = Space.Fourier then
    .error (.valueError "MatrixArray is marked as already in Fourier space")
  else
    .ok (toFourierEntries d m)

/-- Embedding of `Domain.MatrixArray_to_real`: raises if the array is
already Real-tagged, otherwise transforms every column in place and
flips the tag. -/
noncomputable def Domain.MatrixArray_to_real {n : ℕ} (d : Domain) (m : MatrixArray n) :
    Except Err (MatrixArray n) :=
  if m.space = Space.Real then
    .error (.valueError "MatrixArray is marked as already in Real space")
  else
    .ok (toRealEntries d m)

/-- Modelled from the spec: MatrixArray matrix composition `dot` —
matrix multiplication along the two site-type axes with the grid axis
batched; the space tag is carried through. -/
noncomputable def MatrixArray.dot {n : ℕ} (a b : MatrixArray n) : MatrixArray n :=
  { data := fun g => a.data g * b.data g, space := a.space }

/-- Modelled from the spec: MatrixArray scalar multiplication,
elementwise over every grid point and pair entry (`psi * -kT`). -/
noncomputable def smulArr {n : ℕ} (c : ℝ) (a : MatrixArray n) : MatrixArray n :=
  { data := fun g => c • a.data g, space := a.space }

/-- Modelled from the spec: elementwise `np.log(1 + data)` over every
grid point and pair entry (`psi.data = np.log(1 + psi.data)`). -/
noncomputable def logOneAdd {n : ℕ} (a : MatrixArray n) : MatrixArray n :=
  { data := fun g => Matrix.of fun t1 t2 => Real.log (1 + a.data g t1 t2), space := a.space }

/-- Modelled from the spec: the attribute state of a solved PRISM object
consumed by `solvation_potential` — thermal energy `kT`, the radial
grid, and the three pairwise correlation fields.  The rank of the
system is the type index `n`. -/
structure PRISM (n : ℕ) where
  kT : ℝ
  domain : Domain
  directCorr : MatrixArray n
  totalCorr : MatrixArray n
  omega : MatrixArray n

/-- Translation of the guarded in-place transform
`if marray.space == Space.Real: domain.MatrixArray_to_fourier(marray)`:
under the guard the method's error branch is unreachable (the tag is
`Real`, not `Fourier`), so the ok payload is assigned. -/
noncomputable def ensureFourier {n : ℕ} (d : Domain) (m : MatrixArray n) : MatrixArray n :=
  if m.space = Space.Real then toFourierEntries d m else m

/-- State of the PRISM object after the three guarded transforms at the
top of `solvation_potential` (direct correlation, total correlation,
omega each moved to Fourier space if currently Real). -/
noncomputable def ensureAll {n : ℕ} (P : PRISM n) : PRISM n :=
  let P1 := { P with directCorr := ensureFourier P.domain P.directCorr }
  let P2 := { P1 with totalCorr := ensureFourier P1.domain P1.totalCorr }
  { P2 with omega := ensureFourier P2.domain P2.omega }

/-- Fourier-space HNC potential field built by the `closure == 'HNC'`
branch: `psi = directCorr.dot(S).dot(directCorr) * -kT`. -/
noncomputable def hncField {n : ℕ} (sf : PRISM n → MatrixArray n) (P : PRISM n) : MatrixArray n :=
  let Q := ensureAll P
  smulArr (-Q.kT) ((Q.directCorr.dot (sf Q)).dot Q.directCorr)

/-- Fourier-space PY potential field built by the `closure == 'PY'`
branch: `psi = directCorr.dot(S).dot(directCorr)` followed by
`psi.data = np.log(1 + psi.data) * -kT`. -/
noncomputable def pyField {n : ℕ} (sf : PRISM n → MatrixArray n) (P : PRISM n) : MatrixArray n :=
  let Q := ensureAll P
  smulArr (-Q.kT) (logOneAdd ((Q.directCorr.dot (sf Q)).dot Q.directCorr))

/-- Embedding of `typyPRISM.calculate.solvation_potential`.  The
structure-factor collaborator (whose source is outside `src/`) is the
abstract pure function parameter `sf`, consumed as a black box exactly
as the spec prescribes.  The returned pair is (final attribute state of
the PRISM object, result or raised error).  With a closure string other
than `'HNC'` or `'PY'` no branch assigns `psi`, so the final
`MatrixArray_to_real(psi)` raises `UnboundLocalError` — after the three
space transforms above it have already mutated the system. -/
noncomputable def solvation_potential {n : ℕ} (sf : PRISM n → MatrixArray n)
    (P : PRISM n) (closure : String) : PRISM n × Except Err (MatrixArray n) :=
  if 1 < n then
    let P3 := ensureAll P
    let psi : Option (MatrixArray n) :=
      if closure = "HNC" then
        some (hncField sf P)
      else if closure = "PY" then
        some (pyField sf P)
      else
        none
    match psi with
    | none => (P3, .error .unboundLocalError)
    | some v =>
        match P3.domain.MatrixArray_to_real v with
        | .error e => (P3, .error e)
        | .ok w => (P3, .ok w)
  else
    (P, .error (.assertionError "the psi calculation is only valid for multicomponent systems"))

/-! ### Grid structure lemmas -/

lemma getD_map_range (f : ℕ → ℝ) (n i : ℕ) (h : i < n) :
    ((List.range n).map f).getD i 0 = f i := by
  rw [List.getD_eq_getElem _ _ (by simpa using h)]
  simp

lemma arange_step (c : ℝ) (L : ℕ) (hc : 0 < c) :
    arange c (c * ((L : ℝ) + 1)) c = (List.range L).map (fun (i : ℕ) => ((i : ℝ) + 1) * c) := by
  have hzero : c ≠ 0 := ne_of_gt hc
  have hlen : (c * ((L : ℝ) + 1) - c) / c = (L : ℝ) := by
    field_simp
    ring
  unfold arange
  rw [hlen, Nat.ceil_natCast]
  have hfun : (fun i : ℕ => c + (i : ℝ) * c) = fun (i : ℕ) => ((i : ℝ) + 1) * c := by
    funext i
    ring
  rw [hfun]

lemma build_grid_length (d : Domain) : (d.build_grid).length = d.length := rfl

lemma build_grid_dr (d : Domain) : (d.build_grid).dr = d.dr := rfl

lemma build_grid_dk (d : Domain) : (d.build_grid).dk = d.dk := rfl

lemma build_grid_r (d : Domain) (h : 0 < d.dr) :
    (d.build_grid).r = (List.range d.length).map (fun (i : ℕ) => ((i : ℝ) + 1) * d.dr) := by
  show arange d.dr (d.dr * ((d.length : ℝ) + 1)) d.dr = _
  exact arange_step d.dr d.length h

lemma build_grid_k (d : Domain) (h : 0 < d.dk) :
    (d.build_grid).k = (List.range d.length).map (fun (i : ℕ) => ((i : ℝ) + 1) * d.dk) := by
  show arange d.dk (d.dk * ((d.length : ℝ) + 1)) d.dk = _
  exact arange_step d.dk d.length h

lemma build_grid_II (d : Domain) (h : 0 < d.dr) :
    (d.build_grid).DST_II_coeffs
      = (List.range d.length).map (fun (i : ℕ) => 2 * Real.pi * (((i : ℝ) + 1) * d.dr) * d.dr) := by
  show (arange d.dr (d.dr * ((d.length : ℝ) + 1)) d.dr).map (fun x => 2 * Real.pi * x * d.dr) = _
  rw [arange_step d.dr d.length h, List.map_map]
  rfl

lemma build_grid_III (d : Domain) (h : 0 < d.dk) :
    (d.build_grid).DST_III_coeffs
      = (List.range d.length).map
          (fun (i : ℕ) => ((i : ℝ) + 1) * d.dk * d.dk / (4 * Real.pi * Real.pi)) := by
  show (arange d.dk (d.dk * ((d.length : ℝ) + 1)) d.dk).map
      (fun x => x * d.dk / (4 * Real.pi * Real.pi)) = _
  rw [arange_step d.dk d.length h, List.map_map]
  rfl

/-- Bundled description of a rebuilt grid: the facts claim C3 asserts,
for any `Domain` state whose spacings are positive. -/
lemma gridFacts (d : Domain) (hr : 0 < d.dr) (hk : 0 < d.dk) :
    (d.build_grid).r.length = d.length ∧ (d.build_grid).k.length = d.length ∧
    (∀ i, i < d.length → (d.build_grid).r.getD i 0 = ((i : ℝ) + 1) * d.dr) ∧
    (∀ i, i < d.length → (d.build_grid).k.getD i 0 = ((i : ℝ) + 1) * d.dk) := by
  rw [build_grid_r d hr, build_grid_k d hk]
  refine ⟨by simp, by simp, ?_, ?_⟩
  · intro i hi
    rw [getD_map_range _ _ _ hi]
  · intro i hi
    rw [getD_map_range _ _ _ hi]

lemma set_length_facts (d : Domain) (L' : ℕ) (hdr : 0 < d.dr) (hdk : 0 < d.dk) :
    (d.set_length L').length = L' ∧ (d.set_length L').dr = d.dr ∧
    (d.set_length L').dk = d.dk ∧
    (d.set_length L').r.length = L' ∧ (d.set_length L').k.length = L' := by
  have h := gridFacts { d with length := L' } hdr hdk
  exact ⟨rfl, rfl, rfl, h.1, h.2.1⟩

/-- C3: a grid constructed from a positive length and one strictly
positive spacing has `r`/`k` of exactly `length` elements with
`r[i] = (i+1)*dr`, `k[i] = (i+1)*dk`, both strictly increasing and free
of zero, `forwardCoeffs[i] = 2π*r[i]*dr` and
`inverseCoeffs[i] = k[i]*dk/(4π²)`. -/
theorem grid_construction (L : ℕ) (s : ℝ) (odr odk : Option ℝ) (d : Domain)
    (hL : 0 < L) (hs : 0 < s)
    (hopt : (odr = some s ∧ odk = none) ∨ (odr = none ∧ odk = some s))
    (hc : Domain.construct L odr odk = Except.ok d) :
    d.length = L ∧ 0 < d.dr ∧ 0 < d.dk ∧
    d.r.length = L ∧ d.k.length = L ∧
    (∀ i, i < L → d.r.getD i 0 = ((i : ℝ) + 1) * d.dr) ∧
    (∀ i, i < L → d.k.getD i 0 = ((i : ℝ) + 1) * d.dk) ∧
    (∀ i j, i < j → j < L → d.r.getD i 0 < d.r.getD j 0) ∧
    (∀ i j, i < j → j < L → d.k.getD i 0 < d.k.getD j 0) ∧
    d.r.getD 0 0 = d.dr ∧ d.k.getD 0 0 = d.dk ∧
    (0 : ℝ) ∉ d.r ∧ (0 : ℝ) ∉ d.k ∧
    (∀ i, i < L → d.DST_II_coeffs.getD i 0 = 2 * Real.pi * d.r.getD i 0 * d.dr) ∧
    (∀ i, i < L → d.DST_III_coeffs.getD i 0 = d.k.getD i 0 * d.dk / (4 * Real.pi * Real.pi)) := by
  have hLR : (0 : ℝ) < (L : ℝ) := by exact_mod_cast hL
  -- reduce both construction paths to `Domain.build_grid y` with known spacings
  obtain ⟨y, hy, hyl, hydr, hydk⟩ :
      ∃ y : Domain, d = y.build_grid ∧ y.length = L ∧ 0 < y.dr ∧ 0 < y.dk := by
    rcases hopt with ⟨h1, h2⟩ | ⟨h1, h2⟩
    · subst h1; subst h2
      have : d = Domain.build_grid ((Domain.initState L).set_dr s) := by
        have := hc
        unfold Domain.construct at this
        exact (Except.ok.injEq _ _).mp this |>.symm
      refine ⟨(Domain.initState L).set_dr s, this, rfl, hs, ?_⟩
      show (0 : ℝ) < Real.pi / (s * (L : ℝ))
      positivity
    · subst h1; subst h2
      have : d = Domain.build_grid ((Domain.initState L).set_dk s) := by
        have := hc
        unfold Domain.construct at this
        exact (Except.ok.injEq _ _).mp this |>.symm
      refine ⟨(Domain.initState L).set_dk s, this, rfl, ?_, hs⟩
      show (0 : ℝ) < Real.pi / (s * (L : ℝ))
      positivity
  subst hy
  rw [build_grid_dr, build_grid_dk]
  have hg := gridFacts y hydr hydk
  rw [hyl] at hg
  obtain ⟨hrl, hkl, hre, hke⟩ := hg
  have hrmem : (0 : ℝ) ∉ (y.build_grid).r := by
    rw [build_grid_r y hydr]
    intro hm
    obtain ⟨i, _, hi⟩ := List.mem_map.mp hm
    have : (0 : ℝ) < ((i : ℝ) + 1) * y.dr := by positivity
    rw [hi] at this
    exact lt_irrefl _ this
  have hkmem : (0 : ℝ) ∉ (y.build_grid).k := by
    rw [build_grid_k y hydk]
    intro hm
    obtain ⟨i, _, hi⟩ := List.mem_map.mp hm
    have : (0 : ℝ) < ((i : ℝ) + 1) * y.dk := by positivity
    rw [hi] at this
    exact lt_irrefl _ this
  refine ⟨hyl ▸ build_grid_length y, hydr, hydk, hrl, hkl, hre, hke, ?_, ?_, ?_, ?_,
    hrmem, hkmem, ?_, ?_⟩
  · intro i j hij hj
    rw [hre i (hij.trans hj), hre j hj]
    have : (i : ℝ) + 1 < (j : ℝ) + 1 := by exact_mod_cast Nat.succ_lt_succ hij
    exact mul_lt_mul_of_pos_right this hydr
  · intro i j hij hj
    rw [hke i (hij.trans hj), hke j hj]
    have : (i : ℝ) + 1 < (j : ℝ) + 1 := by exact_mod_cast Nat.succ_lt_succ hij
    exact mul_lt_mul_of_pos_right this hydk
  · rw [hre 0 hL]; ring
  · rw [hke 0 hL]; ring
  · intro i hi
    rw [build_grid_II y hydr, hyl] at *
    rw [getD_map_range _ _ _ hi, hre i hi]
  · intro i hi
    rw [build_grid_III y hydk, hyl] at *
    rw [getD_map_range _ _ _ hi, hke i hi]

/-- Witness for C3 at `length = 2`, `dr = 1`. -/
theorem grid_construction_witness :
    (0 : ℝ) < 1 ∧
    ((Domain.build_grid ((Domain.initState 2).set_dr 1)).r.length = 2 ∧
      (Domain.build_grid ((Domain.initState 2).set_dr 1)).k.length = 2) := by
  have h := grid_construction 2 1 (some 1) none
    (Domain.build_grid ((Domain.initState 2).set_dr 1))
    (by decide) one_pos (Or.inl ⟨rfl, rfl⟩) rfl
  exact ⟨one_pos, h.2.2.2.1, h.2.2.2.2.1⟩

/-! ### Length mutation (C5) and constructor dispatch (C6) -/

/-- Concrete grid: `Domain(length=2, dr=1.0)`. -/
noncomputable def exDom2 : Domain := Domain.build_grid ((Domain.initState 2).set_dr 1)

lemma exDom2_dr : exDom2.dr = 1 := rfl

lemma exDom2_dk : exDom2.dk = Real.pi / (1 * ((2 : ℕ) : ℝ)) := rfl

/-- C5 counterexample: for the grid built from `length = 2`, `dr = 1`,
assigning `length = 3` rebuilds `r` and `k` with three points but the
relation `dr * dk * length = π` no longer holds (the spacings are kept,
so the product is `3π/2`). -/
theorem set_length_counterexample :
    Domain.construct 2 (some (1 : ℝ)) none = Except.ok exDom2 ∧
    (exDom2.set_length 3).r.length = 3 ∧ (exDom2.set_length 3).k.length = 3 ∧
    (exDom2.set_length 3).dr * (exDom2.set_length 3).dk * ((3 : ℕ) : ℝ) ≠ Real.pi := by
  have hdr : 0 < exDom2.dr := by rw [exDom2_dr]; norm_num
  have hdk : 0 < exDom2.dk := by
    rw [exDom2_dk]
    positivity
  obtain ⟨hlen, hdr', hdk', hr, hk⟩ := set_length_facts exDom2 3 hdr hdk
  refine ⟨rfl, hr, hk, ?_⟩
  rw [hdr', hdk', exDom2_dr, exDom2_dk]
  intro h
  have h2 : ((2 : ℕ) : ℝ) = 2 := by norm_num
  rw [h2] at h
  have h3 : ((3 : ℕ) : ℝ) = 3 := by norm_num
  rw [h3] at h
  have : 3 * Real.pi = 2 * Real.pi := by
    field_simp at h
    linarith
  have hpi := Real.pi_pos
  linarith

/-- C5 amended: assigning a new positive length rebuilds the grid so
that `r` and `k` have the new length, but both spacings keep their
former values; hence `dr * dk * length = π` survives only when the new
length equals the old one — with a different length the relation is
broken. -/
theorem set_length_rebuild (d : Domain) (L' : ℕ) (hdr : 0 < d.dr) (hdk : 0 < d.dk) :
    (d.set_length L').r.length = L' ∧ (d.set_length L').k.length = L' ∧
    (d.set_length L').length = L' ∧
    (d.set_length L').dr = d.dr ∧ (d.set_length L').dk = d.dk ∧
    (d.dr * d.dk * (d.length : ℝ) = Real.pi → L' ≠ d.length →
      (d.set_length L').dr * (d.set_length L').dk * (L' : ℝ) ≠ Real.pi) := by
  obtain ⟨hlen, hdr', hdk', hr, hk⟩ := set_length_facts d L' hdr hdk
  refine ⟨hr, hk, hlen, hdr', hdk', ?_⟩
  intro hrel hne habs
  rw [hdr', hdk'] at habs
  have hdd : (0 : ℝ) < d.dr * d.dk := mul_pos hdr hdk
  have hcast : (L' : ℝ) = (d.length : ℝ) := by
    have heq : d.dr * d.dk * (L' : ℝ) = d.dr * d.dk * (d.length : ℝ) := habs.trans hrel.symm
    exact mul_left_cancel₀ (ne_of_gt hdd) heq
  exact hne (by exact_mod_cast hcast)

/-- Witness for C5's amended theorem at the concrete grid `exDom2`. -/
theorem set_length_rebuild_witness :
    (exDom2.set_length 5).r.length = 5 ∧ (exDom2.set_length 5).k.length = 5 :=
  ⟨(set_length_rebuild exDom2 5 (by rw [exDom2_dr]; norm_num)
      (by rw [exDom2_dk]; positivity)).1,
    (set_length_rebuild exDom2 5 (by rw [exDom2_dr]; norm_num)
      (by rw [exDom2_dk]; positivity)).2.1⟩

/-- C6: constructing a grid with both spacings or neither raises the
configuration `ValueError`; with exactly one positive spacing it
succeeds and derives the other spacing so that `dr * dk * length = π`. -/
theorem construct_exactly_one (L : ℕ) (s x y : ℝ) (hs : 0 < s) (hL : 0 < L) :
    Domain.construct L none none
        = Except.error (Err.valueError "Real or Fourier grid spacing must be specified") ∧
    Domain.construct L (some x) (some y)
        = Except.error
            (Err.valueError "Cannot specify both Real and Fourier grid spacings independently.") ∧
    (∃ d, Domain.construct L (some s) none = Except.ok d ∧
      d.dr = s ∧ d.dk = Real.pi / (s * (L : ℝ)) ∧ d.dr * d.dk * (L : ℝ) = Real.pi) ∧
    (∃ d, Domain.construct L none (some s) = Except.ok d ∧
      d.dk = s ∧ d.dr = Real.pi / (s * (L : ℝ)) ∧ d.dr * d.dk * (L : ℝ) = Real.pi) := by
  have hsz : s ≠ 0 := ne_of_gt hs
  have hLz : (L : ℝ) ≠ 0 := by
    have : (0 : ℝ) < (L : ℝ) := by exact_mod_cast hL
    exact ne_of_gt this
  refine ⟨rfl, rfl, ⟨_, rfl, rfl, rfl, ?_⟩, ⟨_, rfl, rfl, rfl, ?_⟩⟩
  · show s * (Real.pi / (s * (L : ℝ))) * (L : ℝ) = Real.pi
    field_simp
    ring
  · show Real.pi / (s * (L : ℝ)) * s * (L : ℝ) = Real.pi
    field_simp
    ring

/-- Witness for C6 at `length = 2`, spacing `1`. -/
theorem construct_exactly_one_witness :
    Domain.construct 2 none none
      = Except.error (Err.valueError "Real or Fourier grid spacing must be specified") :=
  (construct_exactly_one 2 1 1 1 one_pos (by decide)).1

/-! ### Discrete sine transform orthogonality

The FFTPACK DST-III is (up to the factor `2N`) the inverse of the
FFTPACK DST-II.  The proof goes through the Dirichlet-type cosine sum
`cosSum`, evaluated by complex geometric series. -/

/-- Partial cosine sum `∑_{j<M} cos(jθ)`. -/
noncomputable def cosSum (M : ℕ) (θ : ℝ) : ℝ := ∑ j ∈ Finset.range M, Real.cos ((j : ℝ) * θ)

lemma cosSum_eq_re (M : ℕ) (θ : ℝ) :
    cosSum M θ = (∑ j ∈ Finset.range M, Complex.exp ((θ : ℂ) * Complex.I) ^ j).re := by
  rw [cosSum, Complex.re_sum]
  apply Finset.sum_congr rfl
  intro j _
  rw [← Complex.exp_nat_mul]
  have harg : (j : ℂ) * ((θ : ℂ) * Complex.I) = (((j : ℝ) * θ : ℝ) : ℂ) * Complex.I := by
    push_cast
    ring
  rw [harg, Complex.exp_ofReal_mul_I_re]

lemma cosSum_of_pow_eq_one (M : ℕ) (θ : ℝ)
    (h1 : Complex.exp ((θ : ℂ) * Complex.I) ≠ 1)
    (hM : Complex.exp ((θ : ℂ) * Complex.I) ^ M = 1) : cosSum M θ = 0 := by
  rw [cosSum_eq_re, geom_sum_eq h1, hM]
  simp

lemma re_inv_unit (z : ℂ) (hz : Complex.normSq z = 1) (h1 : z ≠ 1) :
    ((z - 1)⁻¹).re = -(1/2) := by
  have hre : z.re ≠ 1 := by
    intro h
    apply h1
    have him2 : z.im * z.im = 0 := by
      have hn := Complex.normSq_apply z
      rw [h] at hn
      nlinarith [hz, hn]
    have him : z.im = 0 := by nlinarith
    exact Complex.ext h him
  rw [Complex.inv_re]
  have hnsq : Complex.normSq (z - 1) = 2 - 2 * z.re := by
    have hn := Complex.normSq_apply z
    rw [hz] at hn
    simp only [Complex.normSq_apply, Complex.sub_re, Complex.sub_im, Complex.one_re,
      Complex.one_im]
    nlinarith
  rw [hnsq]
  have hne : (2 : ℝ) - 2 * z.re ≠ 0 := by
    intro h
    exact hre (by linarith)
  field_simp [Complex.sub_re]
  ring

lemma cosSum_of_pow_eq_neg_one (M : ℕ) (θ : ℝ)
    (hM : Complex.exp ((θ : ℂ) * Complex.I) ^ M = -1) : cosSum M θ = 1 := by
  set z := Complex.exp ((θ : ℂ) * Complex.I) with hz
  have h1 : z ≠ 1 := by
    intro h
    rw [h, one_pow] at hM
    exact absurd hM (by norm_num)
  have hnsq : Complex.normSq z = 1 := by
    rw [Complex.normSq_eq_abs, hz, Complex.abs_exp_ofReal_mul_I θ, one_pow]
  rw [cosSum_eq_re, geom_sum_eq h1, hM]
  have hquot : (-1 - 1 : ℂ) / (z - 1) = (-2) * (z - 1)⁻¹ := by
    ring
  rw [hquot, Complex.mul_re, re_inv_unit z hnsq h1]
  norm_num

lemma exp_pi_mul_I_pow (q : ℕ) :
    Complex.exp (((Real.pi * q : ℝ) : ℂ) * Complex.I) = (-1) ^ q := by
  have harg : ((Real.pi * q : ℝ) : ℂ) * Complex.I = (q : ℂ) * ((Real.pi : ℂ) * Complex.I) := by
    push_cast
    ring
  rw [harg, Complex.exp_nat_mul, Complex.exp_pi_mul_I]

lemma exp_ne_one_of_Ioo (θ : ℝ) (h1 : 0 < θ) (h2 : θ < 2 * Real.pi) :
    Complex.exp ((θ : ℂ) * Complex.I) ≠ 1 := by
  intro he
  rw [Complex.exp_eq_one_iff] at he
  obtain ⟨t, ht⟩ := he
  have hI : (θ : ℂ) = (t : ℂ) * (2 * (Real.pi : ℂ)) := by
    have h2' : ((t : ℂ) * (2 * (Real.pi : ℂ) * Complex.I))
        = ((t : ℂ) * (2 * (Real.pi : ℂ))) * Complex.I := by
      ring
    rw [h2'] at ht
    exact mul_right_cancel₀ Complex.I_ne_zero ht
  have hx : θ = (t : ℝ) * (2 * Real.pi) := by exact_mod_cast hI
  have hpos : (0 : ℝ) < (t : ℝ) * (2 * Real.pi) := hx ▸ h1
  have hlt : (t : ℝ) * (2 * Real.pi) < 2 * Real.pi := hx ▸ h2
  have h2pi : (0 : ℝ) < 2 * Real.pi := by positivity
  have ht0 : (0 : ℝ) < (t : ℝ) := by
    by_contra hle
    push_neg at hle
    nlinarith
  have ht1 : (t : ℝ) < 1 := by
    by_contra hge
    push_neg at hge
    nlinarith
  have hti0 : (0 : ℤ) < t := by exact_mod_cast ht0
  have hti1 : t < 1 := by exact_mod_cast ht1
  omega

lemma exp_pow (θ : ℝ) (N : ℕ) :
    Complex.exp ((θ : ℂ) * Complex.I) ^ N
      = Complex.exp ((((N : ℝ) * θ : ℝ) : ℂ) * Complex.I) := by
  rw [← Complex.exp_nat_mul]
  congr 1
  push_cast
  ring

/-- Cosine sum with a half-weight final term: `∑_{j<N} cos(jθ) + cos(Nθ)/2`. -/
noncomputable def Tval (N : ℕ) (θ : ℝ) : ℝ := cosSum N θ + Real.cos ((N : ℝ) * θ) / 2

lemma Tval_zero (N : ℕ) : Tval N 0 = (N : ℝ) + 1/2 := by
  simp [Tval, cosSum]

lemma Tval_neg (N : ℕ) (θ : ℝ) : Tval N (-θ) = Tval N θ := by
  simp [Tval, cosSum, mul_neg, Real.cos_neg]

lemma cos_pi_nat (q : ℕ) : Real.cos (Real.pi * q) = (-1 : ℝ) ^ q := by
  have h := Real.cos_nat_mul_pi_sub 0 q
  simp only [sub_zero, Real.cos_zero, mul_one] at h
  rw [mul_comm]
  exact h

lemma Tval_pi_q (N q : ℕ) (hN : 0 < N) (h0 : 0 < q) (hq : q < 2 * N) :
    Tval N (Real.pi * q / N) = 1/2 := by
  have hNR : (0 : ℝ) < (N : ℝ) := by exact_mod_cast hN
  have hqR : (0 : ℝ) < (q : ℝ) := by exact_mod_cast h0
  have hqltR : (q : ℝ) < 2 * (N : ℝ) := by exact_mod_cast hq
  set θ := Real.pi * q / N with hθ
  have hNθ : (N : ℝ) * θ = Real.pi * q := by
    rw [hθ]
    field_simp
  have hcos : Real.cos ((N : ℝ) * θ) = (-1 : ℝ) ^ q := by
    rw [hNθ, cos_pi_nat]
  have hzpow : Complex.exp ((θ : ℂ) * Complex.I) ^ N = (-1) ^ q := by
    rw [exp_pow, hNθ, exp_pi_mul_I_pow]
  have hθpos : 0 < θ := by
    rw [hθ]
    positivity
  have hθlt : θ < 2 * Real.pi := by
    rw [hθ, div_lt_iff₀ hNR]
    nlinarith [Real.pi_pos]
  rcases Nat.even_or_odd q with he | ho
  · have h1 : Complex.exp ((θ : ℂ) * Complex.I) ≠ 1 := exp_ne_one_of_Ioo θ hθpos hθlt
    have hz1 : Complex.exp ((θ : ℂ) * Complex.I) ^ N = 1 := by
      rw [hzpow, he.neg_one_pow]
    rw [Tval, cosSum_of_pow_eq_one N θ h1 hz1, hcos, he.neg_one_pow]
    norm_num
  · have hz1 : Complex.exp ((θ : ℂ) * Complex.I) ^ N = -1 := by
      rw [hzpow, ho.neg_one_pow]
    rw [Tval, cosSum_of_pow_eq_neg_one N θ hz1, hcos, ho.neg_one_pow]
    norm_num

lemma two_sin_mul_sin (p q : ℝ) :
    2 * (Real.sin p * Real.sin q) = Real.cos (p - q) - Real.cos (p + q) := by
  rw [Real.cos_sub, Real.cos_add]
  ring

lemma shift_cos_sum (N : ℕ) (θ : ℝ) :
    ∑ j ∈ Finset.range N, Real.cos (((j : ℝ) + 1) * θ)
      = cosSum N θ + Real.cos ((N : ℝ) * θ) - 1 := by
  have e1 : ∑ j ∈ Finset.range N, Real.cos (((j : ℝ) + 1) * θ)
      = ∑ j ∈ Finset.range N, (fun t : ℕ => Real.cos ((t : ℝ) * θ)) (j + 1) := by
    apply Finset.sum_congr rfl
    intro j _
    push_cast
    ring_nf
  have h1 := Finset.sum_range_succ' (fun t : ℕ => Real.cos ((t : ℝ) * θ)) N
  have h2 := Finset.sum_range_succ (fun t : ℕ => Real.cos ((t : ℝ) * θ)) N
  have hc : cosSum N θ = ∑ t ∈ Finset.range N, Real.cos ((t : ℝ) * θ) := rfl
  simp only [Nat.cast_zero, zero_mul, Real.cos_zero] at h1
  rw [e1, hc]
  have := h1.symm.trans h2
  linarith [this]

/-- Weighted sine-product sum in terms of `Tval`: the purely algebraic
step of the DST orthogonality relation. -/
lemma weighted_sin_sum (N : ℕ) (hN : 0 < N) (a b : ℝ) :
    ∑ j ∈ Finset.range N,
        (if j = N - 1 then (1 : ℝ) else 2) *
          (Real.sin (((j : ℝ) + 1) * a) * Real.sin (((j : ℝ) + 1) * b))
      = Tval N (a - b) - Tval N (a + b) := by
  have hsplit : ∀ j ∈ Finset.range N,
      (if j = N - 1 then (1 : ℝ) else 2) *
          (Real.sin (((j : ℝ) + 1) * a) * Real.sin (((j : ℝ) + 1) * b))
        = (Real.cos (((j : ℝ) + 1) * (a - b)) - Real.cos (((j : ℝ) + 1) * (a + b)))
            - (if j = N - 1
                then Real.sin (((j : ℝ) + 1) * a) * Real.sin (((j : ℝ) + 1) * b) else 0) := by
    intro j _
    have h2 : 2 * (Real.sin (((j : ℝ) + 1) * a) * Real.sin (((j : ℝ) + 1) * b))
        = Real.cos (((j : ℝ) + 1) * (a - b)) - Real.cos (((j : ℝ) + 1) * (a + b)) := by
      rw [two_sin_mul_sin]
      congr 1
      · congr 1
        ring
      · congr 1
        ring
    by_cases hj : j = N - 1
    · rw [if_pos hj, if_pos hj]
      linarith [h2]
    · rw [if_neg hj, if_neg hj]
      linarith [h2]
  rw [Finset.sum_congr rfl hsplit, Finset.sum_sub_distrib]
  have hA : ∑ j ∈ Finset.range N,
      (Real.cos (((j : ℝ) + 1) * (a - b)) - Real.cos (((j : ℝ) + 1) * (a + b)))
      = (cosSum N (a - b) + Real.cos ((N : ℝ) * (a - b)) - 1)
        - (cosSum N (a + b) + Real.cos ((N : ℝ) * (a + b)) - 1) := by
    rw [Finset.sum_sub_distrib, shift_cos_sum, shift_cos_sum]
  have hmem : N - 1 ∈ Finset.range N := Finset.mem_range.mpr (by omega)
  have hB : ∑ j ∈ Finset.range N,
      (if j = N - 1
        then Real.sin (((j : ℝ) + 1) * a) * Real.sin (((j : ℝ) + 1) * b) else 0)
      = Real.sin ((((N - 1 : ℕ) : ℝ) + 1) * a) * Real.sin ((((N - 1 : ℕ) : ℝ) + 1) * b) := by
    rw [Finset.sum_ite_eq' (Finset.range N) (N - 1)
      (fun j => Real.sin (((j : ℝ) + 1) * a) * Real.sin (((j : ℝ) + 1) * b))]
    simp [hmem]
  have hcast : ((N - 1 : ℕ) : ℝ) + 1 = (N : ℝ) := by
    have h := Nat.succ_pred_eq_of_pos hN
    exact_mod_cast h
  have hss : Real.sin ((((N - 1 : ℕ) : ℝ) + 1) * a) * Real.sin ((((N - 1 : ℕ) : ℝ) + 1) * b)
      = (Real.cos ((N : ℝ) * (a - b)) - Real.cos ((N : ℝ) * (a + b))) / 2 := by
    rw [hcast]
    have h := two_sin_mul_sin ((N : ℝ) * a) ((N : ℝ) * b)
    have h1 : (N : ℝ) * a - (N : ℝ) * b = (N : ℝ) * (a - b) := by ring
    have h2 : (N : ℝ) * a + (N : ℝ) * b = (N : ℝ) * (a + b) := by ring
    rw [h1, h2] at h
    linarith
  rw [hA, hB, hss, Tval, Tval]
  ring

/-- Half-integer frequency of grid channel `t`: `π(2t+1)/(2N)`. -/
noncomputable def aC (N t : ℕ) : ℝ := Real.pi * (2 * (t : ℝ) + 1) / (2 * (N : ℝ))

/-- Discrete orthogonality of the FFTPACK sine kernels: the half-weighted
sum `∑_{j<N} w_j sin((j+1)·aC m)·sin((j+1)·aC t)` is `N·δ_{mt}`, where
`w_j = 2` except `w_{N-1} = 1`. -/
lemma dst_orth (N m t : ℕ) (hN : 0 < N) (hm : m < N) (ht : t < N) :
    ∑ j ∈ Finset.range N,
        (if j = N - 1 then (1 : ℝ) else 2) *
          (Real.sin (((j : ℝ) + 1) * aC N m) * Real.sin (((j : ℝ) + 1) * aC N t))
      = if m = t then (N : ℝ) else 0 := by
  have hNR : (0 : ℝ) < (N : ℝ) := by exact_mod_cast hN
  have hNz : (N : ℝ) ≠ 0 := ne_of_gt hNR
  rw [weighted_sin_sum N hN (aC N m) (aC N t)]
  have hs : aC N m + aC N t = Real.pi * ((m + t + 1 : ℕ) : ℝ) / (N : ℝ) := by
    rw [aC, aC]
    push_cast
    field_simp
    ring
  have hTs : Tval N (aC N m + aC N t) = 1/2 := by
    rw [hs]
    exact Tval_pi_q N (m + t + 1) hN (by omega) (by omega)
  by_cases hmt : m = t
  · subst hmt
    have hd : aC N m - aC N m = 0 := sub_self _
    rw [if_pos rfl, hd, Tval_zero, hTs]
    ring
  · rw [if_neg hmt]
    rcases Nat.lt_or_ge t m with hlt | hge
    · have hd : aC N m - aC N t = Real.pi * ((m - t : ℕ) : ℝ) / (N : ℝ) := by
        rw [aC, aC]
        rw [Nat.cast_sub (le_of_lt hlt)]
        field_simp
        ring
      rw [hd, Tval_pi_q N (m - t) hN (by omega) (by omega), hTs]
      ring
    · have hlt2 : m < t := by omega
      have hd : aC N m - aC N t = -(Real.pi * ((t - m : ℕ) : ℝ) / (N : ℝ)) := by
        rw [aC, aC]
        rw [Nat.cast_sub (le_of_lt hlt2)]
        field_simp
        ring
      rw [hd, Tval_neg, Tval_pi_q N (t - m) hN (by omega) (by omega), hTs]
      ring

/-- Last sine channel reproduces the DST-III alternating sign:
`sin(N · aC m) = (-1)^m`. -/
lemma sin_N_aC (N m : ℕ) (hN : 0 < N) :
    Real.sin ((N : ℝ) * aC N m) = (-1 : ℝ) ^ m := by
  have hNR : (0 : ℝ) < (N : ℝ) := by exact_mod_cast hN
  have hNz : (N : ℝ) ≠ 0 := ne_of_gt hNR
  have harg : (N : ℝ) * aC N m = (m : ℝ) * Real.pi + Real.pi / 2 := by
    rw [aC]
    field_simp
    ring
  rw [harg, Real.sin_add_pi_div_two, mul_comm, cos_pi_nat]

/-! ### List-level transform lemmas -/

lemma dst2_length (x : List ℝ) : (dst2 x).length = x.length := by
  simp [dst2]

lemma dst3_length (x : List ℝ) : (dst3 x).length = x.length := by
  simp [dst3]

lemma npMul_length (a b : List ℝ) : (npMul a b).length = min a.length b.length := by
  simp [npMul]

lemma npDiv_length (a b : List ℝ) : (npDiv a b).length = min a.length b.length := by
  simp [npDiv]

lemma dst2_getD (x : List ℝ) (j : ℕ) (hj : j < x.length) :
    (dst2 x).getD j 0 = 2 * ∑ i ∈ Finset.range x.length,
      x.getD i 0 * Real.sin (Real.pi * ((j : ℝ) + 1) * ((i : ℝ) + 1/2) / (x.length : ℝ)) := by
  unfold dst2
  exact getD_map_range _ _ _ hj

lemma dst3_getD (x : List ℝ) (j : ℕ) (hj : j < x.length) :
    (dst3 x).getD j 0 = (-1 : ℝ) ^ j * x.getD (x.length - 1) 0 +
      2 * ∑ i ∈ Finset.range (x.length - 1),
        x.getD i 0 * Real.sin (Real.pi * ((j : ℝ) + 1/2) * ((i : ℝ) + 1) / (x.length : ℝ)) := by
  unfold dst3
  exact getD_map_range _ _ _ hj

lemma npMul_getD (a b : List ℝ) (i : ℕ) (ha : i < a.length) (hb : i < b.length) :
    (npMul a b).getD i 0 = a.getD i 0 * b.getD i 0 := by
  have hz : i < (List.zipWith (· * ·) a b).length := by
    simp only [List.length_zipWith]
    omega
  rw [npMul, List.getD_eq_getElem _ _ hz, List.getD_eq_getElem _ _ ha,
    List.getD_eq_getElem _ _ hb, List.getElem_zipWith]

lemma npDiv_getD (a b : List ℝ) (i : ℕ) (ha : i < a.length) (hb : i < b.length) :
    (npDiv a b).getD i 0 = a.getD i 0 / b.getD i 0 := by
  have hz : i < (List.zipWith (· / ·) a b).length := by
    simp only [List.length_zipWith]
    omega
  rw [npDiv, List.getD_eq_getElem _ _ hz, List.getD_eq_getElem _ _ ha,
    List.getD_eq_getElem _ _ hb, List.getElem_zipWith]

lemma list_eq_of_getD (l1 l2 : List ℝ) (hlen : l1.length = l2.length)
    (h : ∀ i, i < l1.length → l1.getD i 0 = l2.getD i 0) : l1 = l2 := by
  apply List.ext_getElem hlen
  intro i h1 h2
  have hd := h i h1
  rwa [List.getD_eq_getElem _ _ h1, List.getD_eq_getElem _ _ h2] at hd

lemma sum_weighted_split (N : ℕ) (hN : 0 < N) (f : ℕ → ℝ) :
    ∑ i ∈ Finset.range N, (if i = N - 1 then (1 : ℝ) else 2) * f i
      = f (N - 1) + 2 * ∑ i ∈ Finset.range (N - 1), f i := by
  obtain ⟨N', rfl⟩ : ∃ N', N = N' + 1 := ⟨N - 1, by omega⟩
  rw [Finset.sum_range_succ]
  simp only [Nat.add_sub_cancel, if_true]
  have hcg : ∀ i ∈ Finset.range N', (if i = N' then (1 : ℝ) else 2) * f i = 2 * f i := by
    intro i hi
    rw [if_neg (by simp only [Finset.mem_range] at hi; omega)]
  rw [Finset.sum_congr rfl hcg, ← Finset.mul_sum]
  ring

/-- The FFTPACK DST-III inverts the FFTPACK DST-II up to the factor
`2N`: `dst3 (dst2 x) [m] = 2 N x[m]`. -/
lemma dst3_dst2_getD (x : List ℝ) (m : ℕ) (hm : m < x.length) :
    (dst3 (dst2 x)).getD m 0 = 2 * (x.length : ℝ) * x.getD m 0 := by
  have hN0 : 0 < x.length := by omega
  have hNR : (0 : ℝ) < (x.length : ℝ) := by exact_mod_cast hN0
  have hNz : (x.length : ℝ) ≠ 0 := ne_of_gt hNR
  have hl2 : (dst2 x).length = x.length := dst2_length x
  have hm2 : m < (dst2 x).length := by omega
  rw [dst3_getD (dst2 x) m hm2, hl2]
  have hy : ∀ i : ℕ, i < x.length → (dst2 x).getD i 0
      = 2 * ∑ t ∈ Finset.range x.length,
          x.getD t 0 * Real.sin (((i : ℝ) + 1) * aC x.length t) := by
    intro i hi
    rw [dst2_getD x i hi]
    congr 1
    apply Finset.sum_congr rfl
    intro t _
    congr 2
    rw [aC]
    field_simp
    ring
  have hstep : (-1 : ℝ) ^ m * (dst2 x).getD (x.length - 1) 0
      + 2 * ∑ i ∈ Finset.range (x.length - 1),
          (dst2 x).getD i 0
            * Real.sin (Real.pi * ((m : ℝ) + 1/2) * ((i : ℝ) + 1) / (x.length : ℝ))
      = ∑ i ∈ Finset.range x.length,
          (if i = x.length - 1 then (1 : ℝ) else 2) *
            ((dst2 x).getD i 0 * Real.sin (((i : ℝ) + 1) * aC x.length m)) := by
    rw [sum_weighted_split x.length hN0
      (fun i => (dst2 x).getD i 0 * Real.sin (((i : ℝ) + 1) * aC x.length m))]
    have hlast : Real.sin ((((x.length - 1 : ℕ) : ℝ) + 1) * aC x.length m) = (-1 : ℝ) ^ m := by
      have hc : (((x.length - 1 : ℕ) : ℝ) + 1) = (x.length : ℝ) := by
        exact_mod_cast Nat.succ_pred_eq_of_pos hN0
      rw [hc]
      exact sin_N_aC x.length m hN0
    rw [hlast]
    have hsum : ∀ i ∈ Finset.range (x.length - 1),
        (dst2 x).getD i 0
            * Real.sin (Real.pi * ((m : ℝ) + 1/2) * ((i : ℝ) + 1) / (x.length : ℝ))
          = (dst2 x).getD i 0 * Real.sin (((i : ℝ) + 1) * aC x.length m) := by
      intro i _
      congr 2
      rw [aC]
      field_simp
      ring
    rw [Finset.sum_congr rfl hsum]
    ring
  rw [hstep]
  have hsub : ∀ i ∈ Finset.range x.length,
      (if i = x.length - 1 then (1 : ℝ) else 2) *
          ((dst2 x).getD i 0 * Real.sin (((i : ℝ) + 1) * aC x.length m))
        = ∑ t ∈ Finset.range x.length,
            (2 * x.getD t 0) *
              ((if i = x.length - 1 then (1 : ℝ) else 2) *
                (Real.sin (((i : ℝ) + 1) * aC x.length m)
                  * Real.sin (((i : ℝ) + 1) * aC x.length t))) := by
    intro i hi
    rw [hy i (Finset.mem_range.mp hi), Finset.mul_sum, Finset.sum_mul, Finset.mul_sum]
    apply Finset.sum_congr rfl
    intro t _
    ring
  rw [Finset.sum_congr rfl hsub, Finset.sum_comm]
  have hinner : ∀ t ∈ Finset.range x.length,
      ∑ i ∈ Finset.range x.length,
          (2 * x.getD t 0) *
            ((if i = x.length - 1 then (1 : ℝ) else 2) *
              (Real.sin (((i : ℝ) + 1) * aC x.length m)
                * Real.sin (((i : ℝ) + 1) * aC x.length t)))
        = if m = t then 2 * x.getD t 0 * (x.length : ℝ) else 0 := by
    intro t ht
    rw [← Finset.mul_sum, dst_orth x.length m t hN0 hm (Finset.mem_range.mp ht), mul_ite, mul_zero]
  rw [Finset.sum_congr rfl hinner, Finset.sum_ite_eq, if_pos (Finset.mem_range.mpr hm)]
  ring

/-- Round trip over an arbitrary domain state in grid normal form with
`dr * dk * length = π`: `to_real (to_fourier f) = f` exactly. -/
lemma round_trip_core (d : Domain) (f : List ℝ)
    (hL : 0 < d.length) (hdr : 0 < d.dr) (hdk : 0 < d.dk)
    (hrel : d.dr * d.dk * (d.length : ℝ) = Real.pi)
    (hr : d.r = (List.range d.length).map (fun (i : ℕ) => ((i : ℝ) + 1) * d.dr))
    (hk : d.k = (List.range d.length).map (fun (i : ℕ) => ((i : ℝ) + 1) * d.dk))
    (hII : d.DST_II_coeffs
      = (List.range d.length).map (fun (i : ℕ) => 2 * Real.pi * (((i : ℝ) + 1) * d.dr) * d.dr))
    (hIII : d.DST_III_coeffs
      = (List.range d.length).map
          (fun (i : ℕ) => ((i : ℝ) + 1) * d.dk * d.dk / (4 * Real.pi * Real.pi)))
    (hf : f.length = d.length) :
    d.to_real (d.to_fourier f) = f := by
  have hrlen : d.r.length = d.length := by rw [hr]; simp
  have hklen : d.k.length = d.length := by rw [hk]; simp
  have hIIlen : d.DST_II_coeffs.length = d.length := by rw [hII]; simp
  have hIIIlen : d.DST_III_coeffs.length = d.length := by rw [hIII]; simp
  have hAlen : (npMul d.DST_II_coeffs f).length = d.length := by
    rw [npMul_length, hIIlen, hf]
    simp
  have hg2len : (dst2 (npMul d.DST_II_coeffs f)).length = d.length := by
    rw [dst2_length, hAlen]
  have htflen : (d.to_fourier f).length = d.length := by
    show (npDiv (dst2 (npMul d.DST_II_coeffs f)) d.k).length = d.length
    rw [npDiv_length, hg2len, hklen]
    simp
  have hBlen : (npMul d.DST_III_coeffs (d.to_fourier f)).length = d.length := by
    rw [npMul_length, hIIIlen, htflen]
    simp
  have hg3len : (dst3 (npMul d.DST_III_coeffs (d.to_fourier f))).length = d.length := by
    rw [dst3_length, hBlen]
  have hreslen : (d.to_real (d.to_fourier f)).length = d.length := by
    show (npDiv (dst3 (npMul d.DST_III_coeffs (d.to_fourier f))) d.r).length = d.length
    rw [npDiv_length, hg3len, hrlen]
    simp
  have hrval : ∀ i, i < d.length → d.r.getD i 0 = ((i : ℝ) + 1) * d.dr := by
    intro i hi
    rw [hr]
    exact getD_map_range _ _ _ hi
  have hkval : ∀ i, i < d.length → d.k.getD i 0 = ((i : ℝ) + 1) * d.dk := by
    intro i hi
    rw [hk]
    exact getD_map_range _ _ _ hi
  have hIIval : ∀ i, i < d.length →
      d.DST_II_coeffs.getD i 0 = 2 * Real.pi * (((i : ℝ) + 1) * d.dr) * d.dr := by
    intro i hi
    rw [hII]
    exact getD_map_range _ _ _ hi
  have hIIIval : ∀ i, i < d.length →
      d.DST_III_coeffs.getD i 0 = ((i : ℝ) + 1) * d.dk * d.dk / (4 * Real.pi * Real.pi) := by
    intro i hi
    rw [hIII]
    exact getD_map_range _ _ _ hi
  have hπ : Real.pi ≠ 0 := Real.pi_ne_zero
  have hAval : ∀ i, i < d.length → (npMul d.DST_II_coeffs f).getD i 0
      = 2 * Real.pi * (((i : ℝ) + 1) * d.dr) * d.dr * f.getD i 0 := by
    intro i hi
    rw [npMul_getD _ _ i (by omega) (by omega), hIIval i hi]
  have htf : ∀ j, j < d.length → (d.to_fourier f).getD j 0
      = (dst2 (npMul d.DST_II_coeffs f)).getD j 0 / (((j : ℝ) + 1) * d.dk) := by
    intro j hj
    show (npDiv (dst2 (npMul d.DST_II_coeffs f)) d.k).getD j 0 = _
    rw [npDiv_getD _ _ j (by omega) (by omega), hkval j hj]
  have hB : ∀ j, j < d.length → (npMul d.DST_III_coeffs (d.to_fourier f)).getD j 0
      = d.dk / (4 * Real.pi * Real.pi) * (dst2 (npMul d.DST_II_coeffs f)).getD j 0 := by
    intro j hj
    rw [npMul_getD _ _ j (by omega) (by omega), hIIIval j hj, htf j hj]
    have hkj : ((j : ℝ) + 1) * d.dk ≠ 0 := ne_of_gt (by positivity)
    field_simp
    ring
  apply list_eq_of_getD _ _ (by rw [hreslen, hf])
  intro m hm'
  have hm : m < d.length := by rw [← hreslen]; exact hm'
  have hg3 : (dst3 (npMul d.DST_III_coeffs (d.to_fourier f))).getD m 0
      = d.dk / (4 * Real.pi * Real.pi)
          * (dst3 (dst2 (npMul d.DST_II_coeffs f))).getD m 0 := by
    have hmB : m < (npMul d.DST_III_coeffs (d.to_fourier f)).length := by omega
    have hm2 : m < (dst2 (npMul d.DST_II_coeffs f)).length := by omega
    rw [dst3_getD _ m hmB, dst3_getD _ m hm2, hBlen, hg2len]
    rw [hB (d.length - 1) (by omega)]
    have hcongr : ∀ i ∈ Finset.range (d.length - 1),
        (npMul d.DST_III_coeffs (d.to_fourier f)).getD i 0
            * Real.sin (Real.pi * ((m : ℝ) + 1/2) * ((i : ℝ) + 1) / (d.length : ℝ))
          = (d.dk / (4 * Real.pi * Real.pi)
              * (dst2 (npMul d.DST_II_coeffs f)).getD i 0)
            * Real.sin (Real.pi * ((m : ℝ) + 1/2) * ((i : ℝ) + 1) / (d.length : ℝ)) := by
      intro i hi
      rw [hB i (by simp only [Finset.mem_range] at hi; omega)]
    rw [Finset.sum_congr rfl hcongr]
    have hpull : ∑ i ∈ Finset.range (d.length - 1),
        (d.dk / (4 * Real.pi * Real.pi)
            * (dst2 (npMul d.DST_II_coeffs f)).getD i 0)
          * Real.sin (Real.pi * ((m : ℝ) + 1/2) * ((i : ℝ) + 1) / (d.length : ℝ))
        = d.dk / (4 * Real.pi * Real.pi) * ∑ i ∈ Finset.range (d.length - 1),
            (dst2 (npMul d.DST_II_coeffs f)).getD i 0
              * Real.sin (Real.pi * ((m : ℝ) + 1/2) * ((i : ℝ) + 1) / (d.length : ℝ)) := by
      rw [Finset.mul_sum]
      apply Finset.sum_congr rfl
      intro i _
      ring
    rw [hpull]
    ring
  have hres : (d.to_real (d.to_fourier f)).getD m 0
      = (dst3 (npMul d.DST_III_coeffs (d.to_fourier f))).getD m 0 / (((m : ℝ) + 1) * d.dr) := by
    show (npDiv (dst3 (npMul d.DST_III_coeffs (d.to_fourier f))) d.r).getD m 0 = _
    rw [npDiv_getD _ _ m (by omega) (by omega), hrval m hm]
  rw [hres, hg3, dst3_dst2_getD _ m (by omega), hAlen, hAval m hm]
  have hmdr : ((m : ℝ) + 1) * d.dr ≠ 0 := ne_of_gt (by positivity)
  have key : d.dk * (d.length : ℝ) * d.dr = Real.pi := by linear_combination hrel
  set fm := f.getD m 0 with hfm
  field_simp
  linear_combination (4 * Real.pi * ((m : ℝ) + 1) * d.dr * fm) * key

/-- Decomposition of a successful `Domain.construct` call: the result is
`build_grid` of a state with the given length, positive spacings and
`dr * dk * length = π`. -/
lemma construct_ok (L : ℕ) (s : ℝ) (odr odk : Option ℝ) (d : Domain)
    (hL : 0 < L) (hs : 0 < s)
    (hopt : (odr = some s ∧ odk = none) ∨ (odr = none ∧ odk = some s))
    (hc : Domain.construct L odr odk = Except.ok d) :
    ∃ y : Domain, d = y.build_grid ∧ y.length = L ∧ 0 < y.dr ∧ 0 < y.dk ∧
      y.dr * y.dk * (L : ℝ) = Real.pi := by
  have hLR : (0 : ℝ) < (L : ℝ) := by exact_mod_cast hL
  have hsz : s ≠ 0 := ne_of_gt hs
  have hLz : (L : ℝ) ≠ 0 := ne_of_gt hLR
  rcases hopt with ⟨h1, h2⟩ | ⟨h1, h2⟩
  · subst h1; subst h2
    have hd : d = Domain.build_grid ((Domain.initState L).set_dr s) := by
      have h := hc
      unfold Domain.construct at h
      exact (Except.ok.injEq _ _).mp h |>.symm
    refine ⟨(Domain.initState L).set_dr s, hd, rfl, hs, ?_, ?_⟩
    · show (0 : ℝ) < Real.pi / (s * (L : ℝ))
      positivity
    · show s * (Real.pi / (s * (L : ℝ))) * (L : ℝ) = Real.pi
      field_simp
      ring
  · subst h1; subst h2
    have hd : d = Domain.build_grid ((Domain.initState L).set_dk s) := by
      have h := hc
      unfold Domain.construct at h
      exact (Except.ok.injEq _ _).mp h |>.symm
    refine ⟨(Domain.initState L).set_dk s, hd, rfl, ?_, hs, ?_⟩
    · show (0 : ℝ) < Real.pi / (s * (L : ℝ))
      positivity
    · show Real.pi / (s * (L : ℝ)) * s * (L : ℝ) = Real.pi
      field_simp
      ring

/-- C1: for a grid built by `Domain.construct` from a positive length
and one strictly positive spacing (so `dr * dk * length = π` holds), the
DST-III based `to_real` exactly inverts the DST-II based `to_fourier` on
every radial array of the grid's length: `to_real (to_fourier f) = f`
in exact real arithmetic. -/
theorem to_fourier_round_trip (L : ℕ) (s : ℝ) (odr odk : Option ℝ) (d : Domain) (f : List ℝ)
    (hL : 0 < L) (hs : 0 < s)
    (hopt : (odr = some s ∧ odk = none) ∨ (odr = none ∧ odk = some s))
    (hc : Domain.construct L odr odk = Except.ok d)
    (hf : f.length = L) :
    d.to_real (d.to_fourier f) = f := by
  obtain ⟨y, hy, hyl, hydr, hydk, hyrel⟩ := construct_ok L s odr odk d hL hs hopt hc
  subst hy
  apply round_trip_core
  · show 0 < y.length
    omega
  · exact hydr
  · exact hydk
  · show y.dr * y.dk * (y.length : ℝ) = Real.pi
    rw [hyl]
    exact hyrel
  · exact build_grid_r y hydr
  · exact build_grid_k y hydk
  · exact build_grid_II y hydr
  · exact build_grid_III y hydk
  · show f.length = y.length
    omega

/-- Concrete grid `Domain(length=1, dr=1.0)` for the round-trip witness. -/
noncomputable def wDom : Domain := Domain.build_grid ((Domain.initState 1).set_dr 1)

/-- Witness for C1 at the one-point grid and the array `[5]`. -/
theorem to_fourier_round_trip_witness :
    Domain.construct 1 (some (1 : ℝ)) none = Except.ok wDom ∧
      wDom.to_real (wDom.to_fourier [5]) = [5] :=
  ⟨rfl, to_fourier_round_trip 1 1 (some 1) none wDom [5] (by decide) one_pos
    (Or.inl ⟨rfl, rfl⟩) rfl rfl⟩

/-! ### MatrixArray transforms and the solvation potential -/

lemma ensureFourier_space {n : ℕ} (d : Domain) (m : MatrixArray n) :
    (ensureFourier d m).space = Space.Fourier := by
  unfold ensureFourier
  by_cases h : m.space = Space.Real
  · rw [if_pos h]
    rfl
  · rw [if_neg h]
    cases hs : m.space with
    | Real => exact absurd hs h
    | Fourier => rfl

lemma ensureFourier_of_fourier {n : ℕ} (d : Domain) (m : MatrixArray n)
    (h : m.space = Space.Fourier) : ensureFourier d m = m := by
  unfold ensureFourier
  rw [if_neg (by simp [h])]

lemma to_real_of_fourier {n : ℕ} (d : Domain) (m : MatrixArray n)
    (h : m.space = Space.Fourier) :
    d.MatrixArray_to_real m = Except.ok (toRealEntries d m) := by
  unfold Domain.MatrixArray_to_real
  rw [if_neg (by simp [h])]

lemma hncField_space {n : ℕ} (sf : PRISM n → MatrixArray n) (P : PRISM n) :
    (hncField sf P).space = Space.Fourier :=
  ensureFourier_space P.domain P.directCorr

lemma pyField_space {n : ℕ} (sf : PRISM n → MatrixArray n) (P : PRISM n) :
    (pyField sf P).space = Space.Fourier :=
  ensureFourier_space P.domain P.directCorr

/-- C7: transforming a MatrixArray into the space it is already tagged
with raises the `ValueError` (the spec's SpaceError); in the non-failing
direction every pairwise entry is replaced by the transform of its
column and the tag flips exactly once. -/
theorem marray_transform_space (n : ℕ) (d : Domain) (m : MatrixArray n) :
    (m.space = Space.Fourier →
      d.MatrixArray_to_fourier m
        = Except.error (Err.valueError "MatrixArray is marked as already in Fourier space")) ∧
    (m.space = Space.Real →
      d.MatrixArray_to_fourier m = Except.ok (toFourierEntries d m) ∧
      (toFourierEntries d m).space = Space.Fourier ∧
      ∀ g t1 t2, (toFourierEntries d m).data g t1 t2
        = (d.to_fourier (m.column d.length t1 t2)).getD g 0) ∧
    (m.space = Space.Real →
      d.MatrixArray_to_real m
        = Except.error (Err.valueError "MatrixArray is marked as already in Real space")) ∧
    (m.space = Space.Fourier →
      d.MatrixArray_to_real m = Except.ok (toRealEntries d m) ∧
      (toRealEntries d m).space = Space.Real ∧
      ∀ g t1 t2, (toRealEntries d m).data g t1 t2
        = (d.to_real (m.column d.length t1 t2)).getD g 0) := by
  refine ⟨?_, ?_, ?_, ?_⟩
  · intro h
    unfold Domain.MatrixArray_to_fourier
    rw [if_pos h]
  · intro h
    refine ⟨?_, rfl, fun g t1 t2 => rfl⟩
    unfold Domain.MatrixArray_to_fourier
    rw [if_neg (by simp [h])]
  · intro h
    unfold Domain.MatrixArray_to_real
    rw [if_pos h]
  · intro h
    exact ⟨to_real_of_fourier d m h, rfl, fun g t1 t2 => rfl⟩

/-- Real-tagged constant MatrixArray used by the concrete witnesses. -/
noncomputable def maR : MatrixArray 2 :=
  { data := fun _ => Matrix.of fun _ _ => (1 : ℝ), space := Space.Real }

/-- Fourier-tagged constant MatrixArray used by the concrete witnesses. -/
noncomputable def maF : MatrixArray 2 :=
  { data := fun _ => Matrix.of fun _ _ => (1 : ℝ), space := Space.Fourier }

/-- Witness for C7 at the concrete grid and fields. -/
theorem marray_transform_space_witness :
    exDom2.MatrixArray_to_fourier maF
        = Except.error (Err.valueError "MatrixArray is marked as already in Fourier space") ∧
      exDom2.MatrixArray_to_real maR
        = Except.error (Err.valueError "MatrixArray is marked as already in Real space") :=
  ⟨(marray_transform_space 2 exDom2 maF).1 rfl,
    (marray_transform_space 2 exDom2 maR).2.2.1 rfl⟩

/-- C8: on a single-component system the leading `assert` fails, no
transform runs, and the system state is returned exactly as it was. -/
theorem rank_one_asserts (P : PRISM 1) (sf : PRISM 1 → MatrixArray 1) (closure : String) :
    solvation_potential sf P closure
      = (P, Except.error
          (Err.assertionError "the psi calculation is only valid for multicomponent systems")) := by
  unfold solvation_potential
  rw [if_neg (by decide)]

/-- C2: with closure `'HNC'` the returned potential is the Real-space
transform of the Fourier-space field `-kT • (C·S·C)` (matrix product at
every grid point); with `'PY'` it is the Real-space transform of
`-kT * log(1 + C·S·C)` taken elementwise at every grid point and pair
entry.  Here `C` is the Fourier-space direct correlation and `S` the
black-box structure factor of the transformed system. -/
theorem solvation_closure_formulas (n : ℕ) (hn : 1 < n) (P : PRISM n)
    (sf : PRISM n → MatrixArray n) :
    ((solvation_potential sf P "HNC").2
        = Except.ok (toRealEntries (ensureAll P).domain (hncField sf P)) ∧
      ∀ g, (hncField sf P).data g
        = (-(ensureAll P).kT)
            • ((ensureAll P).directCorr.data g * (sf (ensureAll P)).data g
                * (ensureAll P).directCorr.data g)) ∧
    ((solvation_potential sf P "PY").2
        = Except.ok (toRealEntries (ensureAll P).domain (pyField sf P)) ∧
      ∀ g t1 t2, (pyField sf P).data g t1 t2
        = -(ensureAll P).kT * Real.log
            (1 + ((ensureAll P).directCorr.data g * (sf (ensureAll P)).data g
                * (ensureAll P).directCorr.data g) t1 t2)) := by
  refine ⟨⟨?_, fun g => rfl⟩, ⟨?_, fun g t1 t2 => rfl⟩⟩
  · unfold solvation_potential
    rw [if_pos hn, if_pos rfl]
    dsimp only
    rw [to_real_of_fourier _ _ (hncField_space sf P)]
  · unfold solvation_potential
    rw [if_pos hn, if_neg (by decide), if_pos rfl]
    dsimp only
    rw [to_real_of_fourier _ _ (pyField_space sf P)]

/-- Concrete solved two-component system for the witnesses. -/
noncomputable def pEx : PRISM 2 :=
  { kT := 1, domain := exDom2, directCorr := maR, totalCorr := maR, omega := maR }

/-- Concrete black-box structure-factor collaborator for the witnesses. -/
noncomputable def sfEx : PRISM 2 → MatrixArray 2 := fun _ => maF

/-- Witness for C2 at the concrete two-component system. -/
theorem solvation_closure_formulas_witness :
    (solvation_potential sfEx pEx "HNC").2
      = Except.ok (toRealEntries (ensureAll pEx).domain (hncField sfEx pEx)) :=
  ((solvation_closure_formulas 2 (by decide) pEx sfEx).1).1

/-- C4 counterexample: on a solved two-component system whose fields are
Real-tagged, calling with the unrecognized closure string `'XYZ'` does
fail — but only with an `UnboundLocalError` at the final transform, and
only **after** the direct-correlation field (and the others) have been
mutated to Fourier space, contradicting `fails before any field
mutation occurs`. -/
theorem unknown_closure_counterexample :
    (solvation_potential sfEx pEx "XYZ").2 = Except.error Err.unboundLocalError ∧
    pEx.directCorr.space = Space.Real ∧
    (solvation_potential sfEx pEx "XYZ").1.directCorr.space = Space.Fourier := by
  have hsp : solvation_potential sfEx pEx "XYZ"
      = (ensureAll pEx, Except.error Err.unboundLocalError) := by
    unfold solvation_potential
    rw [if_pos (by decide), if_neg (by decide), if_neg (by decide)]
  rw [hsp]
  exact ⟨rfl, rfl, ensureFourier_space pEx.domain pEx.directCorr⟩

/-- C4 amended: an unrecognized closure string makes the call fail with
`UnboundLocalError` (no dedicated closure check exists), and the failure
happens only after the three guarded transforms have run: on return the
direct-correlation, total-correlation and omega fields are all
Fourier-tagged. -/
theorem unknown_closure_mutates (n : ℕ) (hn : 1 < n) (P : PRISM n)
    (sf : PRISM n → MatrixArray n) (closure : String)
    (h1 : closure ≠ "HNC") (h2 : closure ≠ "PY") :
    (solvation_potential sf P closure).2 = Except.error Err.unboundLocalError ∧
    (solvation_potential sf P closure).1 = ensureAll P ∧
    (solvation_potential sf P closure).1.directCorr.space = Space.Fourier ∧
    (solvation_potential sf P closure).1.totalCorr.space = Space.Fourier ∧
    (solvation_potential sf P closure).1.omega.space = Space.Fourier := by
  have hsp : solvation_potential sf P closure
      = (ensureAll P, Except.error Err.unboundLocalError) := by
    unfold solvation_potential
    rw [if_pos hn, if_neg h1, if_neg h2]
  rw [hsp]
  exact ⟨rfl, rfl, ensureFourier_space P.domain P.directCorr,
    ensureFourier_space P.domain P.totalCorr, ensureFourier_space P.domain P.omega⟩

/-- Witness for C4's amended theorem. -/
theorem unknown_closure_mutates_witness :
    (solvation_potential sfEx pEx "foo").2 = Except.error Err.unboundLocalError :=
  (unknown_closure_mutates 2 (by decide) pEx sfEx "foo" (by decide) (by decide)).1

lemma ensureAll_of_fourier {n : ℕ} (Q : PRISM n)
    (h1 : Q.directCorr.space = Space.Fourier)
    (h2 : Q.totalCorr.space = Space.Fourier)
    (h3 : Q.omega.space = Space.Fourier) : ensureAll Q = Q := by
  show ({ { { Q with directCorr := ensureFourier Q.domain Q.directCorr }
      with totalCorr := ensureFourier Q.domain Q.totalCorr }
      with omega := ensureFourier Q.domain Q.omega } : PRISM n) = Q
  rw [ensureFourier_of_fourier Q.domain Q.directCorr h1,
    ensureFourier_of_fourier Q.domain Q.totalCorr h2,
    ensureFourier_of_fourier Q.domain Q.omega h3]

lemma ensureAll_idem {n : ℕ} (P : PRISM n) : ensureAll (ensureAll P) = ensureAll P :=
  ensureAll_of_fourier (ensureAll P)
    (ensureFourier_space P.domain P.directCorr)
    (ensureFourier_space P.domain P.totalCorr)
    (ensureFourier_space P.domain P.omega)

lemma solvation_fst {n : ℕ} (hn : 1 < n) (sf : PRISM n → MatrixArray n)
    (P : PRISM n) (closure : String) :
    (solvation_potential sf P closure).1 = ensureAll P := by
  unfold solvation_potential
  rw [if_pos hn]
  by_cases hH : closure = "HNC"
  · rw [if_pos hH]
    dsimp only
    rw [to_real_of_fourier _ _ (hncField_space sf P)]
  · rw [if_neg hH]
    by_cases hP : closure = "PY"
    · rw [if_pos hP]
      dsimp only
      rw [to_real_of_fourier _ _ (pyField_space sf P)]
    · rw [if_neg hP]

/-- C9: with a supported closure, calling the potential calculation a
second time on the (mutated) system returned by the first call yields
the same Real-space result — the guards skip the transforms the second
time. -/
theorem solvation_idempotent (n : ℕ) (hn : 1 < n) (P : PRISM n)
    (sf : PRISM n → MatrixArray n) (closure : String)
    (hc : closure = "HNC" ∨ closure = "PY") :
    (solvation_potential sf ((solvation_potential sf P closure).1) closure).2
      = (solvation_potential sf P closure).2 := by
  rw [solvation_fst hn sf P closure]
  have hhnc : hncField sf (ensureAll P) = hncField sf P := by
    unfold hncField
    rw [ensureAll_idem]
  have hpy : pyField sf (ensureAll P) = pyField sf P := by
    unfold pyField
    rw [ensureAll_idem]
  rcases hc with h | h
  · subst h
    unfold solvation_potential
    rw [if_pos hn, if_pos rfl]
    dsimp only
    rw [ensureAll_idem, hhnc, if_pos hn, if_pos rfl]
  · subst h
    unfold solvation_potential
    rw [if_pos hn, if_neg (by decide), if_pos rfl]
    dsimp only
    rw [ensureAll_idem, hpy, if_pos hn, if_neg (by decide), if_pos rfl]

/-- Witness for C9 at the concrete two-component system with HNC. -/
theorem solvation_idempotent_witness :
    (solvation_potential sfEx ((solvation_potential sfEx pEx "HNC").1) "HNC").2
      = (solvation_potential sfEx pEx "HNC").2 :=
  solvation_idempotent 2 (by decide) pEx sfEx "HNC" (Or.inl rfl)

/-- A call against a fixed grid: either transform direction with its
input array. -/
inductive TCall where
  | toF : List ℝ → TCall
  | toR : List ℝ → TCall

/-- State-passing embedding of one transform method call.  The bodies of
`Domain.to_fourier` and `Domain.to_real` consist of a single `return`
expression and assign no attribute, so the domain state comes back
unchanged next to the freshly computed output array. -/
noncomputable def callStep (d : Domain) : TCall → Domain × List ℝ
  | TCall.toF a => (d, d.to_fourier a)
  | TCall.toR a => (d, d.to_real a)

/-- Run a sequence of transform calls, threading the domain state. -/
noncomputable def runCalls (d : Domain) : List TCall → Domain × List (List ℝ)
  | [] => (d, [])
  | c :: cs =>
      let s := callStep d c
      let rest := runCalls s.1 cs
      (rest.1, s.2 :: rest.2)

/-- C10: any sequence of `to_fourier` / `to_real` calls leaves the grid
state exactly as it was, and every output is a pure function of the
initial grid and that call's own input — so repeated calls with equal
inputs give equal outputs, in any order. -/
theorem transforms_pure (d : Domain) (cs : List TCall) :
    runCalls d cs = (d, cs.map (fun c => (callStep d c).2)) := by
  induction cs with
  | nil => rfl
  | cons c cs ih =>
      cases c with
      | toF a => simp [runCalls, callStep, ih]
      | toR a => simp [runCalls, callStep, ih]

end Typy
